import Mathlib

/-!
Verification of the mycelia audio pipeline core: the audio timeline
reader (`chunking.py`: `AudioChunkReader.read`, `fetch_audio`) and the
speech sequence assembler / claim controller (`stt.py`:
`get_speech_sequences`, `claim_sequence`, `release_sequence`,
`process_sequence`, `mark_as_transcribed`).

Modelling conventions:
  * datetimes / timedeltas are rationals counted in seconds;
  * numpy float32 arrays are `List ℚ` (sample values), a buffer of
    fragments is `List (List ℚ)`;
  * Python `int(x)` is truncation toward zero (`pyInt`);
  * `np.mean([a, b], axis=0)` requires both rows to have equal length
    (ragged input raises `ValueError` in numpy); modelled as `Option`;
  * exceptions are `Option.none`;
  * the Mongo collection `audio_chunks` is a `List SChunk`; an
    `update_many` is a `List.map` of a conditional record update, and
    `modified_count` is the number of matched-and-changed documents.
-/

/-- Python `int()` applied to a real value: truncation toward zero. -/
def pyInt (q : ℚ) : ℤ := if 0 ≤ q then ⌊q⌋ else -⌊-q⌋

/-- An audio chunk as seen by `AudioChunkReader`: its declared start time
(seconds) and its decoded PCM samples. -/
structure RChunk where
  start : ℚ
  audio : List ℚ
  deriving DecidableEq

/-- `np.mean([a, b], axis=0)`: elementwise mean of two rows; numpy raises
for ragged (different-length) rows, modelled as `none`. -/
def npMean2 (a b : List ℚ) : Option (List ℚ) :=
  if a.length = b.length then some (List.zipWith (fun x y => (x + y) / 2) a b) else none

/-- One iteration of the `while` body of `AudioChunkReader.read`
(`chunking.py` lines 216-242): decode the chunk, compute the signed
sample offset `diff = int((chunk.start - cursor) * sample_rate)`, insert
silence on a gap, blend on an overlap, append the (possibly trimmed)
audio and advance the cursor. -/
def readStep (sr : ℕ) (cursor : ℚ) (result : List (List ℚ)) (c : RChunk) :
    Option (List (List ℚ) × ℚ) :=
  let audio := c.audio
  let chunkDuration : ℚ := (audio.length : ℚ) / (sr : ℚ)
  let diff : ℤ := pyInt ((c.start - cursor) * (sr : ℚ))
  if 0 < diff then
    -- gap between chunks, insert silence
    some (result ++ [List.replicate diff.toNat 0, audio], c.start + chunkDuration)
  else if diff < 0 then
    -- chunk starts in the past
    let overlap : ℕ := (-diff).toNat
    match result.getLast? with
    | some prev =>
      -- combine overlap with prev chunk:
      --   result[-1] = prev[:overlap]
      --   result.append(np.mean([prev[overlap:], audio[:overlap]], axis=0))
      match npMean2 (prev.drop overlap) (audio.take overlap) with
      | none => none
      | some blended =>
        some (result.dropLast ++ [prev.take overlap, blended, audio.drop overlap],
              c.start + chunkDuration)
    | none =>
      -- audio = audio[-diff:]
      some (result ++ [audio.drop overlap], c.start + chunkDuration)
  else
    some (result ++ [audio], c.start + chunkDuration)

/-- The `while self.cursor - start < duration` loop of
`AudioChunkReader.read`; `StopIteration` on an exhausted cursor breaks the
loop. -/
def readLoop (sr : ℕ) (d : ℚ) (start : ℚ) :
    List RChunk → ℚ → List (List ℚ) → Option (List (List ℚ) × ℚ)
  | [], cursor, result => some (result, cursor)
  | c :: rest, cursor, result =>
    if cursor - start < d then
      match readStep sr cursor result c with
      | none => none
      | some (result', cursor') => readLoop sr d start rest cursor' result'
    else some (result, cursor)

/-- `AudioChunkReader.read(duration)`: run the loop from `cursor = start`
with an empty fragment buffer, then `np.concatenate(result)` — which
raises `ValueError` when the fragment list is empty.  Returns the
concatenated samples together with the final cursor. -/
def AudioChunkReader.read (sr : ℕ) (d : ℚ) (start : ℚ) (cs : List RChunk) :
    Option (List ℚ × ℚ) :=
  match readLoop sr d start cs start [] with
  | none => none
  | some (result, cur) => if result = [] then none else some (result.flatten, cur)

/-- `fetch_audio`: build a reader at `start`, `read(duration)` and
truncate to `result[:int(duration.total_seconds() * sample_rate)]`
(serialization to WAV is out of scope; an exception in `read`
propagates). -/
def fetch_audio (sr : ℕ) (d : ℚ) (start : ℚ) (cs : List RChunk) : Option (List ℚ) :=
  (AudioChunkReader.read sr d start cs).map (fun p => p.1.take (pyInt (d * (sr : ℚ))).toNat)

/-- Total number of samples held by a fragment buffer. -/
def totalLen (r : List (List ℚ)) : ℕ := (r.map List.length).sum

/-! ### Speech sequence assembler (`stt.py`) -/

/-- An `audio_chunks` document as used by `stt.py`: Mongo `_id`,
parent recording id, split index, start timestamp (seconds), and the
transcription/claim bookkeeping fields. -/
structure SChunk where
  id : ℕ
  original_id : ℕ
  index : ℤ
  start : ℚ
  transcribed_at : Option ℚ := none
  processing_by : Option String := none
  claimed_at : Option ℚ := none
  deriving DecidableEq

/-- `SpeechSequence` (pydantic model in `stt.py`).  The field `capped`
is `is_partial` in the source. -/
structure SpeechSequence where
  original_id : ℕ
  chunks : List SChunk := []
  capped : Bool := false
  is_continuation : Bool := false
  deriving DecidableEq

/-- `SpeechSequence.start`: `self.chunks[-1]['start']` (the last-appended
chunk; tracked sequences are never empty, so the default is never hit). -/
def SpeechSequence.startTime (s : SpeechSequence) : ℚ :=
  (s.chunks.getLast?.map SChunk.start).getD 0

/-- `SpeechSequence.min_index`: `self.chunks[-1]['index']`. -/
def SpeechSequence.minIndex (s : SpeechSequence) : ℤ :=
  (s.chunks.getLast?.map SChunk.index).getD 0

/-- The in-memory tracking map `sequences_by_id`, modelled as an
insertion-ordered association list (Python dicts preserve insertion
order, and assignment to an existing key keeps its position). -/
def SeqMap := List (ℕ × SpeechSequence)

/-- `sequences_by_id.get(k)`. -/
def alFind (k : ℕ) : List (ℕ × SpeechSequence) → Option SpeechSequence
  | [] => none
  | (k', v) :: rest => if k' = k then some v else alFind k rest

/-- `del sequences_by_id[k]` (keys are unique, so removing the first
occurrence is exact). -/
def alErase (k : ℕ) : List (ℕ × SpeechSequence) → List (ℕ × SpeechSequence)
  | [] => []
  | (k', v) :: rest => if k' = k then rest else (k', v) :: alErase k rest

/-- `sequences_by_id[k] = v`: replace in place when the key exists,
append otherwise — exactly Python dict assignment. -/
def alSet (k : ℕ) (v : SpeechSequence) :
    List (ℕ × SpeechSequence) → List (ℕ × SpeechSequence)
  | [] => [(k, v)]
  | (k', v') :: rest => if k' = k then (k', v) :: rest else (k', v') :: alSet k v rest

/-- The staleness flush (`stt.py` lines 105-110): for every tracked
sequence whose `start` is more than 600 s after the observed chunk's
`start`, yield it — unless it is a single-chunk continuation — and drop
it from the map.  Returns (yielded sequences in iteration order, kept
entries). -/
def expiryPass (now : ℚ) : List (ℕ × SpeechSequence) →
    List SpeechSequence × List (ℕ × SpeechSequence)
  | [] => ([], [])
  | (k, s) :: rest =>
    let r := expiryPass now rest
    if 600 < s.startTime - now then
      (if !s.is_continuation || 1 < s.chunks.length then s :: r.1 else r.1, r.2)
    else (r.1, (k, s) :: r.2)

/-- The length cap (`stt.py` lines 137-146): once the tracked sequence
reaches `max_sequence_length` chunks it is marked partial, yielded, and
replaced by a fresh continuation sequence seeded with the triggering
chunk. -/
def capCheck (maxLen : ℕ) (c : SChunk) (s' : SpeechSequence)
    (seqs : List (ℕ × SpeechSequence)) :
    List SpeechSequence × List (ℕ × SpeechSequence) :=
  if maxLen ≤ s'.chunks.length then
    ([{ s' with capped := true }],
     alSet c.original_id
       { original_id := c.original_id, chunks := [c], is_continuation := true } seqs)
  else ([], seqs)

/-- Lines 113-146 of `stt.py` for one scanned chunk, after the staleness
flush: discontinuity check (yield and `continue`, dropping the chunk),
else append to the existing sequence or create a fresh one, then apply
the length cap. -/
def corePhase (maxLen : ℕ) (c : SChunk) (seqs : List (ℕ × SpeechSequence)) :
    List SpeechSequence × List (ℕ × SpeechSequence) :=
  match alFind c.original_id seqs with
  | some s =>
    if s.minIndex - 1 ≠ c.index then
      ([s], alErase c.original_id seqs)
    else
      let s' := { s with chunks := s.chunks ++ [c] }
      capCheck maxLen c s' (alSet c.original_id s' seqs)
  | none =>
    let s' : SpeechSequence := { original_id := c.original_id, chunks := [c] }
    capCheck maxLen c s' (alSet c.original_id s' seqs)

/-- `limit is not None and yielded >= limit`. -/
def limitReached : Option ℕ → ℕ → Bool
  | none, _ => false
  | some l, y => decide (l ≤ y)

/-- The scan loop of `get_speech_sequences` (lines 97-146): for each
chunk, break once the yield limit is reached, run the staleness flush,
then the discontinuity/append/cap logic.  Returns (yielded sequences,
final tracking map, yield count). -/
def gssLoop (limit : Option ℕ) (maxLen : ℕ) :
    List SChunk → List (ℕ × SpeechSequence) → ℕ → List SpeechSequence →
    List SpeechSequence × List (ℕ × SpeechSequence) × ℕ
  | [], _seqs, yielded, out => (out, _seqs, yielded)
  | c :: rest, seqs, yielded, out =>
    if limitReached limit yielded then (out, seqs, yielded)
    else
      let e := expiryPass c.start seqs
      let p := corePhase maxLen c e.2
      gssLoop limit maxLen rest p.2 (yielded + e.1.length + p.1.length) (out ++ e.1 ++ p.1)

/-- `get_speech_sequences(limit, max_sequence_length)` applied to the
(already filtered and sorted) chunk stream: the scan loop followed by
the terminal flush of the tracking map, which is skipped when the limit
was reached (lines 150-156). -/
def get_speech_sequences (limit : Option ℕ) (maxLen : ℕ) (cs : List SChunk) :
    List SpeechSequence :=
  let r := gssLoop limit maxLen cs [] 0 []
  if limitReached limit r.2.2 then r.1 else r.1 ++ r.2.1.map Prod.snd

/-! ### Claim / release / mark (`stt.py` lines 159-208, 362-370) -/

/-- The `_id`s of a sequence's chunks. -/
def seqIds (seq : SpeechSequence) : List ℕ := seq.chunks.map SChunk.id

/-- The conditional update applied by `claim_sequence`'s `update_many`:
documents matching `_id ∈ ids ∧ processing_by = None` get
`processing_by = worker_id, claimed_at = now`. -/
def claimUpd (w : String) (t : ℚ) (ids : List ℕ) (c : SChunk) : SChunk :=
  if c.id ∈ ids ∧ c.processing_by = none then
    { c with processing_by := some w, claimed_at := some t }
  else c

/-- `claim_sequence`: one bulk conditional update; success iff the
modified count equals the number of chunks in the sequence.  Returns the
updated store and the success flag. -/
def claim_sequence (w : String) (t : ℚ) (seq : SpeechSequence) (store : List SChunk) :
    List SChunk × Bool :=
  let ids := seqIds seq
  let modified :=
    (store.filter (fun c => decide (c.id ∈ ids ∧ c.processing_by = none))).length
  (store.map (claimUpd w t ids), decide (modified = seq.chunks.length))

/-- `release_sequence`: unconditionally reset `processing_by` and
`claimed_at` on every chunk of the sequence. -/
def release_sequence (seq : SpeechSequence) (store : List SChunk) : List SChunk :=
  store.map (fun c =>
    if c.id ∈ seqIds seq then { c with processing_by := none, claimed_at := none } else c)

/-- The ids `mark_as_transcribed` marks: all chunks, except the last one
when the sequence is partial. -/
def markIds (seq : SpeechSequence) : List ℕ :=
  (if seq.capped then seq.chunks.dropLast else seq.chunks).map SChunk.id

/-- `mark_as_transcribed`: set `transcribed_at = now` on the marked ids
(no store call at all when the list is empty). -/
def mark_as_transcribed (t : ℚ) (seq : SpeechSequence) (store : List SChunk) :
    List SChunk :=
  if markIds seq = [] then store
  else store.map (fun c =>
    if c.id ∈ markIds seq then { c with transcribed_at := some t } else c)

/-- Outcome of the external `transcribe_sequence` call: a transcript, the
`NO_SPEECH_DETECTED` sentinel, or a raised exception (timeout or any
other error). -/
inductive TranscribeOutcome
  | text
  | noSpeech
  | raised
  deriving DecidableEq

/-- `process_sequence` (lines 179-208), with the external transcription
call abstracted by its outcome: claim; on claim failure return
`"skipped"` (nothing else happens to the store); on success transcribe,
then mark as transcribed; on a raised exception release the claim. -/
def process_sequence (w : String) (t : ℚ) (seq : SpeechSequence) (store : List SChunk)
    (o : TranscribeOutcome) : String × List SChunk :=
  let r := claim_sequence w t seq store
  if r.2 then
    match o with
    | .text => ("transcribed", mark_as_transcribed t seq r.1)
    | .noSpeech => ("empty", mark_as_transcribed t seq r.1)
    | .raised => ("error", release_sequence seq r.1)
  else ("skipped", r.1)

/-! ### Well-formedness predicate and concrete instances used in the proofs -/

/-- A well-formed assembled sequence: nonempty, with consecutive
descending chunk indices. -/
def goodSeq (s : SpeechSequence) : Prop :=
  s.chunks ≠ [] ∧ List.Chain' (fun a b => a.index = b.index + 1) s.chunks

def cW : SChunk := { id := 1, original_id := 5, index := 5, start := 0 }

def seqW : SpeechSequence := { original_id := 5, chunks := [cW] }

def cX : SChunk := { id := 2, original_id := 5, index := 9, start := 0 }

def dW1 : SChunk := { id := 1, original_id := 1, index := 0, start := 1000 }
def dW2 : SChunk := { id := 2, original_id := 2, index := 0, start := 1000 }
def dW3 : SChunk := { id := 3, original_id := 3, index := 0, start := 0 }

def eW1 : SChunk := { id := 1, original_id := 1, index := 0, start := 0 }
def eW2 : SChunk :=
  { id := 2, original_id := 1, index := 1, start := 0, processing_by := some "other" }
def seqE : SpeechSequence := { original_id := 1, chunks := [eW2, eW1] }

def fW1 : SChunk := { id := 1, original_id := 1, index := 1, start := 0 }
def fW2 : SChunk := { id := 2, original_id := 1, index := 0, start := 0 }
def seqF : SpeechSequence := { original_id := 1, chunks := [fW1, fW2], capped := true }

/-! ### Theorems -/

theorem alFind_mem {k : ℕ} {l : List (ℕ × SpeechSequence)} {s : SpeechSequence}
    (h : alFind k l = some s) : (k, s) ∈ l := by
  induction l with
  | nil => simp [alFind] at h
  | cons p rest ih =>
    obtain ⟨k', v⟩ := p
    by_cases hk : k' = k
    · subst hk
      simp [alFind] at h
      simp [h]
    · simp [alFind, hk] at h
      exact List.mem_cons_of_mem _ (ih h)

theorem alSet_mem {k : ℕ} {v : SpeechSequence} {l : List (ℕ × SpeechSequence)}
    {p : ℕ × SpeechSequence} (h : p ∈ alSet k v l) : p = (k, v) ∨ p ∈ l := by
  induction l with
  | nil => simp [alSet] at h; simp [h]
  | cons q rest ih =>
    obtain ⟨k', v'⟩ := q
    by_cases hk : k' = k
    · subst hk
      simp [alSet] at h
      rcases h with h | h
      · exact Or.inl (by simp [h])
      · exact Or.inr (List.mem_cons_of_mem _ h)
    · simp [alSet, hk] at h
      rcases h with h | h
      · exact Or.inr (by simp [h])
      · rcases ih h with h' | h'
        · exact Or.inl h'
        · exact Or.inr (List.mem_cons_of_mem _ h')

theorem alErase_sublist (k : ℕ) (l : List (ℕ × SpeechSequence)) :
    (alErase k l).Sublist l := by
  induction l with
  | nil => simp [alErase]
  | cons q rest ih =>
    obtain ⟨k', v'⟩ := q
    by_cases hk : k' = k
    · simp only [alErase, if_pos hk]
      exact List.sublist_cons_self _ _
    · simpa [alErase, hk] using ih.cons₂ (k', v')

theorem expiryPass_keep_sublist (now : ℚ) (l : List (ℕ × SpeechSequence)) :
    ((expiryPass now l).2).Sublist l := by
  induction l with
  | nil => simp [expiryPass]
  | cons q rest ih =>
    obtain ⟨k, s⟩ := q
    by_cases hc : 600 < s.startTime - now
    · simpa [expiryPass, hc] using ih.cons (k, s)
    · simpa [expiryPass, hc] using ih.cons₂ (k, s)

theorem expiryPass_yield_mem {now : ℚ} {l : List (ℕ × SpeechSequence)}
    {s : SpeechSequence} (h : s ∈ (expiryPass now l).1) : ∃ k, (k, s) ∈ l := by
  induction l with
  | nil => simp [expiryPass] at h
  | cons q rest ih =>
    obtain ⟨k', s'⟩ := q
    by_cases hc : 600 < s'.startTime - now
    · by_cases hy : !s'.is_continuation || 1 < s'.chunks.length
      · simp [expiryPass, hc, hy] at h
        rcases h with h | h
        · exact ⟨k', by simp [h]⟩
        · obtain ⟨k, hk⟩ := ih h
          exact ⟨k, List.mem_cons_of_mem _ hk⟩
      · simp [expiryPass, hc, hy] at h
        obtain ⟨k, hk⟩ := ih h
        exact ⟨k, List.mem_cons_of_mem _ hk⟩
    · simp [expiryPass, hc] at h
      obtain ⟨k, hk⟩ := ih h
      exact ⟨k, List.mem_cons_of_mem _ hk⟩

theorem expiryPass_length (now : ℚ) (l : List (ℕ × SpeechSequence)) :
    (expiryPass now l).1.length + (expiryPass now l).2.length ≤ l.length := by
  induction l with
  | nil => simp [expiryPass]
  | cons q rest ih =>
    obtain ⟨k, s⟩ := q
    by_cases hc : 600 < s.startTime - now
    · by_cases hy : !s.is_continuation || 1 < s.chunks.length
      · simp only [expiryPass, hc, if_pos, hy, if_true, List.length_cons]
        omega
      · simp only [expiryPass, hc, if_pos, hy] at *
        simp only [if_false, Bool.false_eq_true, List.length_cons]
        omega
    · simp only [expiryPass, hc, if_neg, if_false, List.length_cons]
      omega

theorem capCheck_yield_good {maxLen : ℕ} {c : SChunk} {s' : SpeechSequence}
    {seqs : List (ℕ × SpeechSequence)} (hs : goodSeq s') {s : SpeechSequence}
    (h : s ∈ (capCheck maxLen c s' seqs).1) : goodSeq s := by
  by_cases hcap : maxLen ≤ s'.chunks.length
  · simp [capCheck, hcap] at h
    subst h
    exact hs
  · simp [capCheck, hcap] at h

theorem capCheck_state_good {maxLen : ℕ} {c : SChunk} {s' : SpeechSequence}
    {seqs : List (ℕ × SpeechSequence)}
    (hseqs : ∀ p ∈ seqs, goodSeq p.2) {p : ℕ × SpeechSequence}
    (h : p ∈ (capCheck maxLen c s' seqs).2) : goodSeq p.2 := by
  by_cases hcap : maxLen ≤ s'.chunks.length
  · simp only [capCheck, if_pos hcap] at h
    rcases alSet_mem h with h' | h'
    · subst h'
      exact ⟨by simp, by simp⟩
    · exact hseqs _ h'
  · simp only [capCheck, if_neg hcap] at h
    exact hseqs _ h

theorem append_good {s : SpeechSequence} {c : SChunk} (hs : goodSeq s)
    (hidx : s.minIndex - 1 = c.index) :
    goodSeq { s with chunks := s.chunks ++ [c] } := by
  obtain ⟨hne, hch⟩ := hs
  refine ⟨by simp, ?_⟩
  simp only
  rw [List.chain'_append]
  refine ⟨hch, List.chain'_singleton _, ?_⟩
  intro x hx y hy
  simp only [List.head?_cons, Option.mem_def, Option.some.injEq] at hy
  subst hy
  have hlast : s.chunks.getLast? = some (s.chunks.getLast hne) := List.getLast?_eq_getLast _ hne
  rw [hlast] at hx
  simp only [Option.mem_def, Option.some.injEq] at hx
  subst hx
  have : s.minIndex = (s.chunks.getLast hne).index := by
    simp [SpeechSequence.minIndex, hlast]
  omega

theorem corePhase_yield_good {maxLen : ℕ} {c : SChunk} {seqs : List (ℕ × SpeechSequence)}
    (hseqs : ∀ p ∈ seqs, goodSeq p.2) {s : SpeechSequence}
    (h : s ∈ (corePhase maxLen c seqs).1) : goodSeq s := by
  unfold corePhase at h
  cases hfind : alFind c.original_id seqs with
  | some s₀ =>
    rw [hfind] at h
    by_cases hdisc : s₀.minIndex - 1 ≠ c.index
    · simp only [if_pos hdisc] at h
      simp at h
      subst h
      exact hseqs _ (alFind_mem hfind)
    · simp only [if_neg hdisc] at h
      push_neg at hdisc
      exact capCheck_yield_good (append_good (hseqs _ (alFind_mem hfind)) hdisc) h
  | none =>
    rw [hfind] at h
    exact capCheck_yield_good ⟨by simp, by simp⟩ h

theorem corePhase_state_good {maxLen : ℕ} {c : SChunk} {seqs : List (ℕ × SpeechSequence)}
    (hseqs : ∀ p ∈ seqs, goodSeq p.2) {p : ℕ × SpeechSequence}
    (h : p ∈ (corePhase maxLen c seqs).2) : goodSeq p.2 := by
  unfold corePhase at h
  cases hfind : alFind c.original_id seqs with
  | some s₀ =>
    rw [hfind] at h
    by_cases hdisc : s₀.minIndex - 1 ≠ c.index
    · simp only [if_pos hdisc] at h
      exact hseqs _ ((alErase_sublist _ _).subset h)
    · simp only [if_neg hdisc] at h
      push_neg at hdisc
      refine capCheck_state_good ?_ h
      intro q hq
      rcases alSet_mem hq with h' | h'
      · subst h'
        exact append_good (hseqs _ (alFind_mem hfind)) hdisc
      · exact hseqs _ h'
  | none =>
    rw [hfind] at h
    refine capCheck_state_good ?_ h
    intro q hq
    rcases alSet_mem hq with h' | h'
    · subst h'
      exact ⟨by simp, by simp⟩
    · exact hseqs _ h'

theorem gssLoop_good (limit : Option ℕ) (maxLen : ℕ) :
    ∀ (cs : List SChunk) (seqs : List (ℕ × SpeechSequence)) (yielded : ℕ)
      (out : List SpeechSequence),
      (∀ p ∈ seqs, goodSeq p.2) → (∀ s ∈ out, goodSeq s) →
      (∀ s ∈ (gssLoop limit maxLen cs seqs yielded out).1, goodSeq s) ∧
      (∀ p ∈ (gssLoop limit maxLen cs seqs yielded out).2.1, goodSeq p.2) := by
  intro cs
  induction cs with
  | nil =>
    intro seqs yielded out hseqs hout
    exact ⟨hout, hseqs⟩
  | cons c rest ih =>
    intro seqs yielded out hseqs hout
    by_cases hl : limitReached limit yielded
    · simp only [gssLoop, hl, if_true]
      exact ⟨hout, hseqs⟩
    · simp only [gssLoop, hl, Bool.false_eq_true, if_false]
      apply ih
      · intro p hp
        exact corePhase_state_good
          (fun q hq => hseqs _ ((expiryPass_keep_sublist _ _).subset hq)) hp
      · intro s hs
        rcases List.mem_append.1 hs with hs | hs
        · rcases List.mem_append.1 hs with hs | hs
          · exact hout _ hs
          · obtain ⟨k, hk⟩ := expiryPass_yield_mem hs
            exact hseqs _ hk
        · exact corePhase_yield_good
            (fun q hq => hseqs _ ((expiryPass_keep_sublist _ _).subset hq)) hs

theorem gss_good (limit : Option ℕ) (maxLen : ℕ) (cs : List SChunk) :
    ∀ s ∈ get_speech_sequences limit maxLen cs, goodSeq s := by
  intro s hs
  unfold get_speech_sequences at hs
  have h := gssLoop_good limit maxLen cs [] 0 [] (by simp) (by simp)
  by_cases hl : limitReached limit (gssLoop limit maxLen cs [] 0 []).2.2
  · rw [if_pos hl] at hs
    exact h.1 _ hs
  · rw [if_neg hl] at hs
    rcases List.mem_append.1 hs with hs | hs
    · exact h.1 _ hs
    · obtain ⟨p, hp, hps⟩ := List.mem_map.1 hs
      exact hps ▸ h.2 _ hp

/-- C7: every sequence yielded by `get_speech_sequences` has consecutive
descending chunk indices: `c[k].index = c[k+1].index + 1` for every
adjacent pair. -/
theorem gss_contiguous (limit : Option ℕ) (maxLen : ℕ) (cs : List SChunk)
    (s : SpeechSequence) (hs : s ∈ get_speech_sequences limit maxLen cs) :
    List.Chain' (fun a b => a.index = b.index + 1) s.chunks :=
  (gss_good limit maxLen cs s hs).2

theorem gss_single_run :
    get_speech_sequences (some 10) 30 [cW] = [seqW] := by
  norm_num [get_speech_sequences, gssLoop, expiryPass, corePhase, capCheck, alFind, alSet,
    limitReached, seqW, cW]

/-- Witness for C7 at a concrete one-chunk scan. -/
theorem gss_contiguous_witness :
    List.Chain' (fun a b => a.index = b.index + 1) seqW.chunks :=
  gss_contiguous (some 10) 30 [cW] seqW (by rw [gss_single_run]; simp)

/-- C10: every yielded sequence is nonempty. -/
theorem gss_nonempty (limit : Option ℕ) (maxLen : ℕ) (cs : List SChunk)
    (s : SpeechSequence) (hs : s ∈ get_speech_sequences limit maxLen cs) :
    s.chunks ≠ [] :=
  (gss_good limit maxLen cs s hs).1

theorem gss_nonempty_witness : seqW.chunks ≠ [] :=
  gss_nonempty (some 10) 30 [cW] seqW (by rw [gss_single_run]; simp)

theorem alSet_keys_mem {k : ℕ} {v : SpeechSequence} {l : List (ℕ × SpeechSequence)}
    {k' : ℕ} (h : k' ∈ (alSet k v l).map Prod.fst) : k' = k ∨ k' ∈ l.map Prod.fst := by
  obtain ⟨p, hp, hpk⟩ := List.mem_map.1 h
  rcases alSet_mem hp with h' | h'
  · subst h'
    exact Or.inl hpk.symm
  · exact Or.inr (hpk ▸ List.mem_map_of_mem _ h')

theorem alSet_keys_nodup {k : ℕ} {v : SpeechSequence} {l : List (ℕ × SpeechSequence)}
    (h : (l.map Prod.fst).Nodup) : ((alSet k v l).map Prod.fst).Nodup := by
  induction l with
  | nil => simp [alSet]
  | cons q rest ih =>
    obtain ⟨k', v'⟩ := q
    simp only [List.map_cons, List.nodup_cons] at h
    by_cases hk : k' = k
    · subst hk
      have hset : alSet k' v ((k', v') :: rest) = (k', v) :: rest := by
        simp [alSet]
      rw [hset, List.map_cons, List.nodup_cons]
      exact ⟨h.1, h.2⟩
    · simp only [alSet, if_neg hk, List.map_cons, List.nodup_cons]
      refine ⟨?_, ih h.2⟩
      intro hmem
      rcases alSet_keys_mem hmem with h' | h'
      · exact hk h'
      · exact h.1 h'

theorem corePhase_keys_nodup {maxLen : ℕ} {c : SChunk} {seqs : List (ℕ × SpeechSequence)}
    (h : (seqs.map Prod.fst).Nodup) :
    (((corePhase maxLen c seqs).2).map Prod.fst).Nodup := by
  unfold corePhase
  cases hfind : alFind c.original_id seqs with
  | some s₀ =>
    by_cases hdisc : s₀.minIndex - 1 ≠ c.index
    · simp only [if_pos hdisc]
      exact h.sublist ((alErase_sublist _ _).map _)
    · simp only [if_neg hdisc, capCheck]
      by_cases hcap : maxLen ≤ ({ s₀ with chunks := s₀.chunks ++ [c] } : SpeechSequence).chunks.length
      · simp only [if_pos hcap]
        exact alSet_keys_nodup (alSet_keys_nodup h)
      · simp only [if_neg hcap]
        exact alSet_keys_nodup h
  | none =>
    simp only [capCheck]
    by_cases hcap : maxLen ≤ ({ original_id := c.original_id, chunks := [c] } : SpeechSequence).chunks.length
    · simp only [if_pos hcap]
      exact alSet_keys_nodup (alSet_keys_nodup h)
    · simp only [if_neg hcap]
      exact alSet_keys_nodup h

theorem corePhase_keys_mem {maxLen : ℕ} {c : SChunk} {seqs : List (ℕ × SpeechSequence)}
    {k : ℕ} (h : k ∈ ((corePhase maxLen c seqs).2).map Prod.fst) :
    k = c.original_id ∨ k ∈ seqs.map Prod.fst := by
  unfold corePhase at h
  cases hfind : alFind c.original_id seqs with
  | some s₀ =>
    rw [hfind] at h
    by_cases hdisc : s₀.minIndex - 1 ≠ c.index
    · simp only [if_pos hdisc] at h
      exact Or.inr (((alErase_sublist _ _).map _).subset h)
    · simp only [if_neg hdisc] at h
      simp only [capCheck] at h
      split at h
      · rcases alSet_keys_mem h with h' | h'
        · exact Or.inl h'
        · rcases alSet_keys_mem h' with h'' | h''
          · exact Or.inl h''
          · exact Or.inr h''
      · rcases alSet_keys_mem h with h' | h'
        · exact Or.inl h'
        · exact Or.inr h'
  | none =>
    rw [hfind] at h
    simp only [capCheck] at h
    split at h
    · rcases alSet_keys_mem h with h' | h'
      · exact Or.inl h'
      · rcases alSet_keys_mem h' with h'' | h''
        · exact Or.inl h''
        · exact Or.inr h''
    · rcases alSet_keys_mem h with h' | h'
      · exact Or.inl h'
      · exact Or.inr h'

theorem corePhase_yield_length (maxLen : ℕ) (c : SChunk) (seqs : List (ℕ × SpeechSequence)) :
    (corePhase maxLen c seqs).1.length ≤ 1 := by
  unfold corePhase
  cases alFind c.original_id seqs with
  | some s₀ =>
    by_cases hdisc : s₀.minIndex - 1 ≠ c.index
    · simp [hdisc]
    · simp only [if_neg hdisc, capCheck]
      split <;> simp
  | none =>
    simp only [capCheck]
    split <;> simp

theorem keys_length_le {seqs : List (ℕ × SpeechSequence)} {ids : Finset ℕ}
    (hnd : (seqs.map Prod.fst).Nodup) (hsub : ∀ k ∈ seqs.map Prod.fst, k ∈ ids) :
    seqs.length ≤ ids.card := by
  have h1 : (seqs.map Prod.fst).toFinset.card = (seqs.map Prod.fst).length :=
    List.toFinset_card_of_nodup hnd
  have h2 : (seqs.map Prod.fst).toFinset ⊆ ids := by
    intro k hk
    exact hsub k (List.mem_toFinset.1 hk)
  have h3 := Finset.card_le_card h2
  simpa [h1, List.length_map] using h3.trans_eq rfl

theorem gssLoop_bound (L maxLen : ℕ) (ids : Finset ℕ) :
    ∀ (cs : List SChunk) (seqs : List (ℕ × SpeechSequence)) (yielded : ℕ)
      (out : List SpeechSequence),
      (seqs.map Prod.fst).Nodup →
      (∀ k ∈ seqs.map Prod.fst, k ∈ ids) →
      (∀ c ∈ cs, c.original_id ∈ ids) →
      yielded ≤ L + ids.card →
      (gssLoop (some L) maxLen cs seqs yielded out).2.2 ≤ L + ids.card ∧
      ((gssLoop (some L) maxLen cs seqs yielded out).2.1.map Prod.fst).Nodup ∧
      (∀ k ∈ (gssLoop (some L) maxLen cs seqs yielded out).2.1.map Prod.fst, k ∈ ids) ∧
      (gssLoop (some L) maxLen cs seqs yielded out).1.length + yielded =
        (gssLoop (some L) maxLen cs seqs yielded out).2.2 + out.length := by
  intro cs
  induction cs with
  | nil =>
    intro seqs yielded out hnd hsub _ hy
    exact ⟨hy, hnd, hsub, by simp only [gssLoop]; omega⟩
  | cons c rest ih =>
    intro seqs yielded out hnd hsub hcs hy
    by_cases hl : limitReached (some L) yielded
    · simp only [gssLoop, hl, if_true]
      exact ⟨hy, hnd, hsub, Nat.add_comm _ _⟩
    · simp only [gssLoop, hl, Bool.false_eq_true, if_false]
      have hyL : yielded < L := by
        simpa [limitReached] using hl
      have hkeep := expiryPass_keep_sublist c.start seqs
      have hnd2 : (((expiryPass c.start seqs).2).map Prod.fst).Nodup :=
        hnd.sublist (hkeep.map _)
      have hsub2 : ∀ k ∈ ((expiryPass c.start seqs).2).map Prod.fst, k ∈ ids :=
        fun k hk => hsub k ((hkeep.map _).subset hk)
      have hnd3 := @corePhase_keys_nodup maxLen c _ hnd2
      have hsub3 : ∀ k ∈ ((corePhase maxLen c (expiryPass c.start seqs).2).2).map Prod.fst,
          k ∈ ids := by
        intro k hk
        rcases corePhase_keys_mem hk with h' | h'
        · exact h' ▸ hcs c (List.mem_cons_self c rest)
        · exact hsub2 k h'
      have hslen : seqs.length ≤ ids.card := keys_length_le hnd hsub
      have hexp := expiryPass_length c.start seqs
      have hcp := corePhase_yield_length maxLen c (expiryPass c.start seqs).2
      have hkeeplen := hkeep.length_le
      have hy' : yielded + (expiryPass c.start seqs).1.length +
          (corePhase maxLen c (expiryPass c.start seqs).2).1.length ≤ L + ids.card := by
        omega
      have hrec := ih (corePhase maxLen c (expiryPass c.start seqs).2).2
        (yielded + (expiryPass c.start seqs).1.length +
          (corePhase maxLen c (expiryPass c.start seqs).2).1.length)
        (out ++ (expiryPass c.start seqs).1 ++ (corePhase maxLen c (expiryPass c.start seqs).2).1)
        hnd3 hsub3 (fun c' hc' => hcs c' (List.mem_cons_of_mem _ hc')) hy'
      refine ⟨hrec.1, hrec.2.1, hrec.2.2.1, ?_⟩
      have := hrec.2.2.2
      simp only [List.length_append] at this
      omega

/-- C4 (amended): with `limit = L`, the scan yields at most `L + D`
sequences in total, where `D` is the number of distinct recordings among
the scanned chunks (the limit is checked only once per scanned chunk, so
the staleness flush inside a single step can overshoot `L` by up to the
number of concurrently tracked recordings). -/
theorem gss_limit_bound (L maxLen : ℕ) (cs : List SChunk) :
    (get_speech_sequences (some L) maxLen cs).length ≤
      L + (cs.map SChunk.original_id).toFinset.card := by
  have h := gssLoop_bound L maxLen (cs.map SChunk.original_id).toFinset cs [] 0 []
    (by simp) (by simp) (fun c hc => List.mem_toFinset.2 (List.mem_map_of_mem _ hc))
    (by omega)
  have hout : (gssLoop (some L) maxLen cs [] 0 []).1.length =
      (gssLoop (some L) maxLen cs [] 0 []).2.2 := by
    have h4 := h.2.2.2
    simpa using h4
  unfold get_speech_sequences
  by_cases hl : limitReached (some L) (gssLoop (some L) maxLen cs [] 0 []).2.2
  · simp only [hl, if_true]
    omega
  · simp only [hl, Bool.false_eq_true, if_false]
    have hlen : (gssLoop (some L) maxLen cs [] 0 []).2.1.length ≤
        (cs.map SChunk.original_id).toFinset.card := keys_length_le h.2.1 h.2.2.1
    have hyl : (gssLoop (some L) maxLen cs [] 0 []).2.2 < L := by
      simpa [limitReached] using hl
    simp only [List.length_append, List.length_map]
    omega

/-- C3 (amended): on an index discontinuity the tracked sequence is
yielded and removed, and the scan `continue`s — the observed chunk is
dropped for this scan, not used to seed a new sequence. -/
theorem gss_discontinuity_drops_chunk (limit : Option ℕ) (maxLen : ℕ) (c : SChunk)
    (rest : List SChunk) (seqs : List (ℕ × SpeechSequence)) (yielded : ℕ)
    (out : List SpeechSequence) (s : SpeechSequence)
    (hnl : limitReached limit yielded = false)
    (hfind : alFind c.original_id (expiryPass c.start seqs).2 = some s)
    (hdisc : s.minIndex - 1 ≠ c.index) :
    gssLoop limit maxLen (c :: rest) seqs yielded out =
      gssLoop limit maxLen rest (alErase c.original_id (expiryPass c.start seqs).2)
        (yielded + (expiryPass c.start seqs).1.length + 1)
        (out ++ (expiryPass c.start seqs).1 ++ [s]) := by
  simp only [gssLoop, hnl, Bool.false_eq_true, if_false, corePhase, hfind, if_pos hdisc,
    List.length_singleton]

/-- Witness for C3's amended theorem: a tracked sequence at min index 5
meets a chunk with index 9. -/
theorem gss_discontinuity_drops_chunk_witness :
    gssLoop (some 10) 30 [cX] [(5, seqW)] 0 [] =
      gssLoop (some 10) 30 [] (alErase cX.original_id (expiryPass cX.start [(5, seqW)]).2)
        (0 + (expiryPass cX.start [(5, seqW)]).1.length + 1)
        ([] ++ (expiryPass cX.start [(5, seqW)]).1 ++ [seqW]) :=
  gss_discontinuity_drops_chunk (some 10) 30 cX [] [(5, seqW)] 0 [] seqW
    (by simp [limitReached])
    (by norm_num [expiryPass, alFind, SpeechSequence.startTime, seqW, cW, cX])
    (by norm_num [SpeechSequence.minIndex, seqW, cW, cX])

/-- C3 (counterexample to the claim as stated): chunk `cX` (index 9)
arrives while the sequence for the same recording is at min index 5; the
run yields only the old sequence and no sequence containing `cX` is ever
started — the final tracking map is empty, so the full output of the
scan is `[seqW]` and `cX` is in no yielded sequence. -/
theorem gss_discontinuity_no_new_sequence :
    get_speech_sequences (some 10) 30 [cW, cX] = [seqW] ∧ cX ∉ seqW.chunks := by
  constructor
  · norm_num [get_speech_sequences, gssLoop, expiryPass, corePhase, capCheck, alFind, alSet,
      alErase, limitReached, SpeechSequence.startTime, SpeechSequence.minIndex, seqW, cW, cX]
  · norm_num [seqW, cW, cX]

/-- C4 (counterexample to the claim as stated): with `limit = 1`, two
tracked sequences go stale at once when `dW3` is scanned, and both are
yielded inside that single step — the scan yields 2 sequences. -/
theorem gss_limit_overshoot :
    (get_speech_sequences (some 1) 30 [dW1, dW2, dW3]).length = 2 := by
  norm_num [get_speech_sequences, gssLoop, expiryPass, corePhase, capCheck, alFind, alSet,
    alErase, limitReached, SpeechSequence.startTime, SpeechSequence.minIndex, dW1, dW2, dW3]

theorem map_eq_self_of_mem {f : SChunk → SChunk} {l : List SChunk} (h : l.map f = l) :
    ∀ c ∈ l, f c = c := by
  induction l with
  | nil => simp
  | cons a t ih =>
    simp only [List.map_cons, List.cons.injEq] at h
    intro c hc
    rcases List.mem_cons.1 hc with rfl | hc
    · exact h.1
    · exact ih h.2 c hc

/-- C1 (amended): a partial claim is treated as failure — the sequence is
skipped — but the chunks this attempt did modify are NOT rolled back:
the returned store keeps them claimed by this worker. -/
theorem claim_conflict_no_rollback (w : String) (t : ℚ) (seq : SpeechSequence)
    (store : List SChunk) (o : TranscribeOutcome)
    (hfail : (claim_sequence w t seq store).2 = false)
    (hsome : ∃ c ∈ store, c.id ∈ seqIds seq ∧ c.processing_by = none) :
    (process_sequence w t seq store o).1 = "skipped" ∧
    (process_sequence w t seq store o).2 ≠ store ∧
    (∀ c ∈ store, c.id ∈ seqIds seq → c.processing_by = none →
      { c with processing_by := some w, claimed_at := some t } ∈
        (process_sequence w t seq store o).2) := by
  have hp : process_sequence w t seq store o =
      ("skipped", store.map (claimUpd w t (seqIds seq))) := by
    simp only [process_sequence]
    rw [hfail]
    simp [claim_sequence]
  refine ⟨by rw [hp], ?_, ?_⟩
  · rw [hp]
    intro heq
    simp only at heq
    obtain ⟨c, hc, hid, hnone⟩ := hsome
    have hfix := map_eq_self_of_mem heq c hc
    rw [claimUpd, if_pos ⟨hid, hnone⟩] at hfix
    have := congrArg SChunk.processing_by hfix
    simp [hnone] at this
  · intro c hc hid hnone
    rw [hp]
    have : claimUpd w t (seqIds seq) c =
        { c with processing_by := some w, claimed_at := some t } := by
      rw [claimUpd, if_pos ⟨hid, hnone⟩]
    exact this ▸ List.mem_map_of_mem _ hc

/-- C1 (counterexample to the claim as stated): chunk `eW2` is already
claimed by another worker, so the claim attempt modifies only `eW1`
(1 of 2); the attempt is skipped but `eW1` is left claimed by this
worker — the store is NOT as if the claim had never been attempted. -/
theorem claim_conflict_residue :
    process_sequence "w" 7 seqE [eW1, eW2] .text =
      ("skipped", [{ eW1 with processing_by := some "w", claimed_at := some 7 }, eW2]) ∧
    ({ eW1 with processing_by := some "w", claimed_at := some 7 } : SChunk) ≠ eW1 := by
  constructor
  · simp +decide [process_sequence, claim_sequence, claimUpd, seqIds, seqE, eW1, eW2]
  · simp [eW1]

/-- Witness for C1's amended theorem at the concrete two-chunk store. -/
theorem claim_conflict_no_rollback_witness :
    (process_sequence "w" 7 seqE [eW1, eW2] .text).1 = "skipped" ∧
    (process_sequence "w" 7 seqE [eW1, eW2] .text).2 ≠ [eW1, eW2] := by
  have h := claim_conflict_no_rollback "w" 7 seqE [eW1, eW2] .text
    (by simp +decide [claim_sequence, seqIds, seqE, eW1, eW2])
    ⟨eW1, by simp [seqIds, seqE, eW1, eW2]⟩
  exact ⟨h.1, h.2.1⟩

/-- C8: `mark_as_transcribed` stamps `transcribed_at = now` on every
chunk of the sequence except the last one when the sequence is partial
(the cap-triggering chunk that seeds the continuation stays unmarked and
eligible); when the sequence is not partial, all chunks are marked. -/
theorem mark_as_transcribed_spec (t : ℚ) (seq : SpeechSequence) (store : List SChunk)
    (hnd : (seq.chunks.map SChunk.id).Nodup) (lc : SChunk)
    (hlast : seq.chunks.getLast? = some lc) :
    (seq.capped = true → markIds seq = seq.chunks.dropLast.map SChunk.id) ∧
    (seq.capped = false → markIds seq = seq.chunks.map SChunk.id) ∧
    (∀ (i : ℕ) (c : SChunk), store[i]? = some c → c.id ∈ markIds seq →
      (mark_as_transcribed t seq store)[i]? = some { c with transcribed_at := some t }) ∧
    (seq.capped = true → ∀ (i : ℕ) (c : SChunk), store[i]? = some c → c.id = lc.id →
      (mark_as_transcribed t seq store)[i]? = some c) := by
  have hne : seq.chunks ≠ [] := by
    intro h
    rw [h] at hlast
    simp at hlast
  have hlc : lc = seq.chunks.getLast hne := by
    rw [List.getLast?_eq_getLast _ hne] at hlast
    exact (Option.some.injEq _ _ ▸ hlast).symm
  refine ⟨fun hc => by simp [markIds, hc], fun hc => by simp [markIds, hc], ?_, ?_⟩
  · intro i c hi hmem
    have hmn : markIds seq ≠ [] := by
      intro h
      rw [h] at hmem
      simp at hmem
    rw [mark_as_transcribed, if_neg hmn, List.getElem?_map, hi]
    simp [hmem]
  · intro hcap i c hi hid
    have hsplit : seq.chunks.dropLast ++ [seq.chunks.getLast hne] = seq.chunks :=
      List.dropLast_append_getLast hne
    have hnotin : lc.id ∉ seq.chunks.dropLast.map SChunk.id := by
      have hmap : (seq.chunks.dropLast.map SChunk.id) ++ [lc.id] =
          seq.chunks.map SChunk.id := by
        rw [← hsplit, List.map_append, hlc]
        simp
      rw [← hmap] at hnd
      rcases List.nodup_append.1 hnd with ⟨_, _, hdisj⟩
      intro hmem
      exact hdisj hmem (by simp)
    have hnotin' : c.id ∉ markIds seq := by
      simp only [markIds, if_pos hcap]
      rw [hid]
      exact hnotin
    by_cases hmn : markIds seq = []
    · rw [mark_as_transcribed, if_pos hmn, hi]
    · rw [mark_as_transcribed, if_neg hmn, List.getElem?_map, hi]
      simp [hnotin']

/-- Witness for C8: a partial two-chunk sequence; the first chunk is
marked, the last (continuation seed) keeps `transcribed_at` unchanged. -/
theorem mark_as_transcribed_spec_witness :
    (mark_as_transcribed 7 seqF [fW1, fW2])[0]? =
      some { fW1 with transcribed_at := some 7 } ∧
    (mark_as_transcribed 7 seqF [fW1, fW2])[1]? = some fW2 := by
  have h := mark_as_transcribed_spec 7 seqF [fW1, fW2]
    (by simp [seqF, fW1, fW2]) fW2 (by simp [seqF])
  exact ⟨h.2.2.1 0 fW1 rfl (by simp [markIds, seqF, fW1]),
    h.2.2.2 rfl 1 fW2 rfl rfl⟩

theorem pyInt_pos_facts {q : ℚ} (h : 0 < pyInt q) : 0 ≤ q ∧ pyInt q = ⌊q⌋ := by
  by_cases hq : 0 ≤ q
  · exact ⟨hq, by rw [pyInt, if_pos hq]⟩
  · exfalso
    rw [pyInt, if_neg hq] at h
    push_neg at hq
    have : (0:ℤ) ≤ ⌊-q⌋ := Int.floor_nonneg.2 (by linarith)
    omega

theorem pyInt_zero_lt_one {q : ℚ} (h : pyInt q = 0) : q < 1 := by
  by_cases hq : 0 ≤ q
  · rw [pyInt, if_pos hq] at h
    have := Int.lt_floor_add_one q
    rw [h] at this
    simpa using this
  · push_neg at hq
    linarith

theorem pyInt_neg_facts {q : ℚ} (h : pyInt q < 0) :
    q < 0 ∧ ((-pyInt q : ℤ) : ℚ) ≤ -q := by
  by_cases hq : 0 ≤ q
  · exfalso
    rw [pyInt, if_pos hq] at h
    have : (0:ℤ) ≤ ⌊q⌋ := Int.floor_nonneg.2 hq
    omega
  · push_neg at hq
    rw [pyInt, if_neg (not_le.2 hq)]
    refine ⟨hq, ?_⟩
    push_cast
    simpa using Int.floor_le (-q)

theorem natSub_cast_ge (a b : ℕ) : (a : ℚ) - b ≤ ((a - b : ℕ) : ℚ) := by
  rcases Nat.le_total b a with h | h
  · rw [Nat.cast_sub h]
  · have h0 : a - b = 0 := Nat.sub_eq_zero_of_le h
    rw [h0]
    have : (a : ℚ) ≤ (b : ℚ) := by exact_mod_cast h
    simpa using this

theorem readStep_totalLen {sr : ℕ} (hsr : 0 < sr) {cursor : ℚ} {result : List (List ℚ)}
    {c : RChunk} {result' : List (List ℚ)} {cursor' : ℚ}
    (h : readStep sr cursor result c = some (result', cursor')) :
    (totalLen result : ℚ) + (cursor' - cursor) * sr - 1 ≤ totalLen result' := by
  have hsrQ : (sr : ℚ) ≠ 0 := Nat.cast_ne_zero.2 hsr.ne'
  simp only [readStep] at h
  set x := (c.start - cursor) * (sr : ℚ) with hx
  set A := c.audio.length with hA
  have hmul : ((c.start + (A : ℚ) / sr - cursor) * sr) = x + A := by
    field_simp
    ring
  by_cases hpos : 0 < pyInt x
  · rw [if_pos hpos] at h
    simp only [Option.some.injEq, Prod.mk.injEq] at h
    obtain ⟨rfl, rfl⟩ := h
    have hfl := pyInt_pos_facts hpos
    have hlt := Int.lt_floor_add_one x
    have hcast : ((pyInt x).toNat : ℚ) = ((pyInt x : ℤ) : ℚ) := by
      exact_mod_cast Int.toNat_of_nonneg hpos.le
    simp only [totalLen, List.map_append, List.sum_append, List.map_cons, List.map_nil,
      List.sum_cons, List.sum_nil, List.length_replicate]
    push_cast
    rw [hmul]
    rw [← hfl.2] at hlt
    rw [hcast]
    linarith
  · rw [if_neg hpos] at h
    by_cases hneg : pyInt x < 0
    · rw [if_pos hneg] at h
      obtain ⟨hxneg, hofl⟩ := pyInt_neg_facts hneg
      have hocast : (((-pyInt x).toNat : ℕ) : ℚ) = ((-pyInt x : ℤ) : ℚ) := by
        exact_mod_cast Int.toNat_of_nonneg (by omega)
      set o := (-pyInt x).toNat with ho
      have hoQ : (o : ℚ) ≤ -x := by rw [hocast]; exact hofl
      cases hlastE : result.getLast? with
      | some prev =>
        simp only [hlastE] at h
        cases hmean : npMean2 (prev.drop o) (c.audio.take o) with
        | none =>
          simp only [hmean] at h
          exact absurd h (by simp)
        | some blended =>
          simp only [hmean] at h
          simp only [Option.some.injEq, Prod.mk.injEq] at h
          obtain ⟨rfl, rfl⟩ := h
          have hrs : result.dropLast ++ [prev] = result := by
            have hne : result ≠ [] := by
              intro hnil
              rw [hnil] at hlastE
              simp at hlastE
            have hgl : result.getLast hne = prev := by
              have := List.getLast?_eq_getLast result hne
              rw [this] at hlastE
              exact (Option.some.injEq .. ▸ hlastE)
            rw [← hgl]
            exact List.dropLast_append_getLast hne
          have hblen : blended.length = prev.length - o := by
            simp only [npMean2] at hmean
            by_cases hlen : (prev.drop o).length = (c.audio.take o).length
            · rw [if_pos hlen] at hmean
              obtain rfl := (Option.some.injEq .. ▸ hmean)
              simp [List.length_zipWith, hlen.symm]
            · rw [if_neg hlen] at hmean
              exact absurd hmean (by simp)
          have hconstraint : prev.length - o = min o A := by
            simp only [npMean2] at hmean
            by_cases hlen : (prev.drop o).length = (c.audio.take o).length
            · simpa using hlen
            · rw [if_neg hlen] at hmean
              exact absurd hmean (by simp)
          have htl : (totalLen result : ℚ) =
              totalLen result.dropLast + prev.length := by
            conv_lhs => rw [← hrs]
            simp [totalLen]
          rw [htl]
          simp only [totalLen, List.map_append, List.sum_append, List.map_cons, List.map_nil,
            List.sum_cons, List.sum_nil, List.length_take, List.length_drop, hblen]
          push_cast
          rw [hmul]
          set L := prev.length with hL
          have hminsub : min o L + (L - o) = L := by
            rcases Nat.le_total o L with hc | hc
            · rw [Nat.min_eq_left hc]
              omega
            · rw [Nat.min_eq_right hc]
              omega
          have hminsubQ : ((min o L : ℕ) : ℚ) + ((L - o : ℕ) : ℚ) = (L : ℚ) := by
            exact_mod_cast congrArg (Nat.cast : ℕ → ℚ) hminsub
          have hS : x + (A : ℚ) - 1 ≤ ((A - o : ℕ) : ℚ) := by
            rcases Nat.le_total o A with hc | hc
            · rw [Nat.cast_sub hc]
              linarith
            · rw [Nat.sub_eq_zero_of_le hc]
              have : (A : ℚ) ≤ (o : ℚ) := by exact_mod_cast hc
              simp only [Nat.cast_zero]
              linarith
          have hminQ : ((o : ℚ) ⊓ (L : ℚ)) + ((L - o : ℕ) : ℚ) = (L : ℚ) := by
            rw [← Nat.cast_min]
            exact_mod_cast congrArg (Nat.cast : ℕ → ℚ) hminsub
          have hAo : ((c.audio.length - o : ℕ) : ℚ) = ((A - o : ℕ) : ℚ) := by rw [← hA]
          rw [hAo]
          linarith
      | none =>
        simp only [hlastE] at h
        simp only [Option.some.injEq, Prod.mk.injEq] at h
        obtain ⟨rfl, rfl⟩ := h
        simp only [totalLen, List.map_append, List.sum_append, List.map_cons, List.map_nil,
          List.sum_cons, List.sum_nil, List.length_drop]
        push_cast
        rw [hmul]
        have := natSub_cast_ge A o
        push_cast at this
        linarith
    · have hzero : pyInt x = 0 := by omega
      rw [if_neg hneg] at h
      simp only [Option.some.injEq, Prod.mk.injEq] at h
      obtain ⟨rfl, rfl⟩ := h
      have hx1 : x < 1 := pyInt_zero_lt_one hzero
      simp only [totalLen, List.map_append, List.sum_append, List.map_cons, List.map_nil,
        List.sum_cons, List.sum_nil]
      push_cast
      rw [hmul]
      linarith

theorem readLoop_totalLen {sr : ℕ} (hsr : 0 < sr) (d start : ℚ) :
    ∀ (cs : List RChunk) (cursor : ℚ) (result : List (List ℚ))
      (res : List (List ℚ)) (cur : ℚ),
      readLoop sr d start cs cursor result = some (res, cur) →
      (totalLen result : ℚ) + (cur - cursor) * sr - cs.length ≤ totalLen res := by
  intro cs
  induction cs with
  | nil =>
    intro cursor result res cur h
    simp only [readLoop, Option.some.injEq, Prod.mk.injEq] at h
    obtain ⟨rfl, rfl⟩ := h
    simp
  | cons c rest ih =>
    intro cursor result res cur h
    simp only [readLoop] at h
    by_cases hrun : cursor - start < d
    · rw [if_pos hrun] at h
      cases hstep : readStep sr cursor result c with
      | none =>
        simp only [hstep] at h
        exact absurd h (by simp)
      | some p =>
        obtain ⟨result', cursor'⟩ := p
        simp only [hstep] at h
        have h1 := readStep_totalLen hsr hstep
        have h2 := ih cursor' result' res cur h
        simp only [List.length_cons]
        push_cast
        push_cast at h2
        linarith
    · rw [if_neg hrun] at h
      simp only [Option.some.injEq, Prod.mk.injEq] at h
      obtain ⟨rfl, rfl⟩ := h
      simp only [List.length_cons]
      have : (0 : ℚ) ≤ (rest.length : ℚ) + 1 := by positivity
      push_cast
      linarith

/-- C6 (amended): whenever `read` returns and the final cursor reached
the end of the requested window (enough chunks existed), the returned
sample count is at least `duration * sample_rate` minus one sample per
chunk in the stream — each `int(...)`-truncated sub-sample gap can lose
up to one sample, so the exact `duration * sample_rate` lower bound of
the claim does not hold. -/
theorem read_length_lower_bound (sr : ℕ) (d start : ℚ) (cs : List RChunk)
    (out : List ℚ) (cur : ℚ) (hsr : 0 < sr)
    (hread : AudioChunkReader.read sr d start cs = some (out, cur))
    (hcov : d ≤ cur - start) :
    d * sr - cs.length ≤ (out.length : ℚ) := by
  unfold AudioChunkReader.read at hread
  cases hloop : readLoop sr d start cs start [] with
  | none =>
    simp only [hloop] at hread
    exact absurd hread (by simp)
  | some p =>
    obtain ⟨result, cur'⟩ := p
    simp only [hloop] at hread
    by_cases hres : result = []
    · rw [if_pos hres] at hread
      exact absurd hread (by simp)
    · rw [if_neg hres] at hread
      simp only [Option.some.injEq, Prod.mk.injEq] at hread
      obtain ⟨rfl, rfl⟩ := hread
      have h1 := readLoop_totalLen hsr d start cs start [] result _ hloop
      have h2 : result.flatten.length = totalLen result := by
        simp [totalLen]
      rw [h2]
      have h3 : d * (sr : ℚ) ≤ (cur' - start) * sr := by
        apply mul_le_mul_of_nonneg_right hcov
        positivity
      simp only [totalLen] at h1 ⊢
      simp only [List.map_nil, List.sum_nil, Nat.cast_zero, zero_add] at h1
      linarith

/-- C6 (counterexample to the claim as stated): two chunks whose
sub-sample gaps (0.6 samples each at 10 Hz) are truncated to zero
inserted samples; the stream covers the whole 1 s window (final cursor
1.02 ≥ 1) yet only 9 < 10 = duration·sample_rate samples are returned. -/
theorem read_undershoots_duration :
    (AudioChunkReader.read 10 1 0 [⟨3/50, [1,1,1,1]⟩, ⟨13/25, [2,2,2,2,2]⟩]).map
      (fun p => ((p.1.length : ℚ), p.2)) = some (9, 51/50) ∧
    (9 : ℚ) < 1 * 10 ∧ (1 : ℚ) ≤ 51/50 - 0 := by
  refine ⟨?_, by norm_num, by norm_num⟩
  norm_num [AudioChunkReader.read, readLoop, readStep, pyInt, npMean2, Int.floor_eq_iff]
  exact ⟨_, ⟨by simp, rfl⟩, by simp⟩

/-- Witness for C6's amended theorem: one exactly-aligned chunk. -/
theorem read_length_lower_bound_witness :
    (1 : ℚ) * (1 : ℕ) - ([(⟨0, [1]⟩ : RChunk)] : List RChunk).length ≤
      (([1] : List ℚ).length : ℚ) :=
  read_length_lower_bound 1 1 0 [⟨0, [1]⟩] [1] 1 (by norm_num)
    (by norm_num [AudioChunkReader.read, readLoop, readStep, pyInt])
    (by norm_num)

/-- C5 (amended): when the signed offset is positive, the loop inserts
exactly `int((chunk.start - cursor) * sample_rate)` zero samples —
truncation toward zero, not `round` — before the chunk audio, and the
buffer grows by exactly that many zeros plus the chunk's samples. -/
theorem gap_fill_truncated (sr : ℕ) (d start cursor : ℚ) (c : RChunk)
    (rest : List RChunk) (result : List (List ℚ))
    (hrun : cursor - start < d)
    (hdiff : 0 < pyInt ((c.start - cursor) * sr)) :
    readLoop sr d start (c :: rest) cursor result =
      readLoop sr d start rest (c.start + (c.audio.length : ℚ) / sr)
        (result ++ [List.replicate (pyInt ((c.start - cursor) * sr)).toNat 0, c.audio]) ∧
    totalLen (result ++ [List.replicate (pyInt ((c.start - cursor) * sr)).toNat 0, c.audio]) =
      totalLen result + (pyInt ((c.start - cursor) * sr)).toNat + c.audio.length := by
  constructor
  · simp only [readLoop, if_pos hrun, readStep, if_pos hdiff]
  · simp [totalLen]
    omega

/-- Witness for C5's amended theorem: gap of 1.6 samples, 1 zero inserted. -/
theorem gap_fill_truncated_witness :
    readLoop 10 1 0 [⟨4/25, [1,1]⟩] 0 [] =
      readLoop 10 1 0 [] ((4:ℚ)/25 + (([1,1] : List ℚ).length : ℚ) / 10)
        ([] ++ [List.replicate (pyInt (((4:ℚ)/25 - 0) * 10)).toNat 0, [1,1]]) ∧
    totalLen ([] ++ [List.replicate (pyInt (((4:ℚ)/25 - 0) * 10)).toNat 0, [1,1]]) =
      totalLen [] + (pyInt (((4:ℚ)/25 - 0) * 10)).toNat + ([1,1] : List ℚ).length :=
  gap_fill_truncated 10 1 0 0 ⟨4/25, [1,1]⟩ [] [] (by norm_num)
    (by norm_num [pyInt, Int.floor_eq_iff])

/-- C5 (counterexample to the claim as stated): a gap of 1.6 samples is
filled with `int(1.6) = 1` zero, but `round(1.6) = 2` — the spec's
`round` does not match the code's truncation. -/
theorem gap_fill_not_round :
    AudioChunkReader.read 10 1 0 [⟨4/25, [1,1]⟩] =
      some (List.replicate 1 0 ++ [1,1], 9/25) ∧
    round (((4:ℚ)/25 - 0) * 10) = 2 ∧ (2 : ℤ) ≠ 1 := by
  refine ⟨?_, by norm_num [round_eq, Int.floor_eq_iff], by norm_num⟩
  norm_num [AudioChunkReader.read, readLoop, readStep, pyInt, npMean2, Int.floor_eq_iff]
  intro h
  simp at h

/-- C9: with a positive duration and no chunk matching the filter, the
fragment list stays empty, `np.concatenate([])` raises, and both `read`
and `fetch_audio` fail rather than returning an empty array. -/
theorem read_no_chunks_raises (sr : ℕ) (d start : ℚ) (_hd : 0 < d) :
    AudioChunkReader.read sr d start [] = none ∧ fetch_audio sr d start [] = none := by
  constructor
  · simp [AudioChunkReader.read, readLoop]
  · simp [fetch_audio, AudioChunkReader.read, readLoop]

/-- Witness for C9 at the defaults (16 kHz, 1 s). -/
theorem read_no_chunks_raises_witness :
    AudioChunkReader.read 16000 1 0 [] = none ∧ fetch_audio 16000 1 0 [] = none :=
  read_no_chunks_raises 16000 1 0 (by norm_num)

/-- C2 (code evaluated at the failing input): a 5-sample chunk followed
by a 3-sample chunk overlapping by 2 samples at 1 Hz; the blend step
computes `np.mean([prev[2:], audio[:2]], axis=0)` on rows of lengths 3
and 2, which raises, so `read` fails instead of producing the seam mean
that the spec describes. -/
theorem overlap_blend_raises :
    AudioChunkReader.read 1 10 0 [⟨0, [1,1,1,1,1]⟩, ⟨3, [5,5,5]⟩] = none := by
  norm_num [AudioChunkReader.read, readLoop, readStep, pyInt, npMean2, Int.floor_eq_iff,
    show ((2:ℤ)).toNat = 2 from rfl]
